import Mathlib

/-!
Verification of the pairing / scheduling engine of `generator.py` (with the
reference cohort `TEST_DATA` from `genetic.py`).

Shallow embedding conventions:
* Python `str` names are `String`; integer skill levels are `ℤ`; calendar
  dates are `ℕ`, counted in days from a fixed Monday epoch, so
  `date.weekday()` is `d % 7` (Monday = 0 ... Sunday = 6) and
  `timedelta(days=1)` is `d + 1`.
* Python dicts are association lists looked up with `List.lookup`
  (first match); `x in dict` is `(lookup x).isSome`.
* `np.random.rand()` is modelled by an externally supplied stream
  `ρ : ℕ → ℚ` of draws together with a cursor into the stream; numpy
  guarantees each draw lies in `[0, 1)`, which appears as a hypothesis.
* Fallible code returns `Option`; loops whose termination is not evident
  run on fuel, with `Res.timeout` marking fuel exhaustion (a run that was
  still looping), `Res.err` an uncaught Python exception (IndexError /
  KeyError), and `Res.ok` a normal return.
-/

abbrev DevName := String

/-- A dev pair: the Python 2-tuple of names built by `pair_devs`. -/
abbrev SPair := DevName × DevName

/-- Dates a given dev cannot be scheduled on (`schedule_restrictions`). -/
abbrev Restr := List (DevName × List ℕ)

/-- Stream of `np.random.rand()` draws. -/
abbrev RandStream := ℕ → ℚ

/-- Result of a fuelled run of Python code: normal return, uncaught
exception, or fuel exhausted while the loop was still running. -/
inductive Res (α : Type) where
  | ok (a : α)
  | err
  | timeout
deriving DecidableEq

/-- Python list indexing semantics: a nonnegative index must be below the
length, a negative index `i` addresses `len + i` provided `len + i ≥ 0`;
anything else raises IndexError (here: `none`). -/
def normIdx (len : ℕ) (i : ℤ) : Option ℕ :=
  if 0 ≤ i then (if i < (len : ℤ) then some i.toNat else none)
  else (if -(len : ℤ) ≤ i then some (len - (-i).toNat) else none)

/-- `l[i]` with Python indexing; `none` is an IndexError. -/
def pyGet {α : Type} (l : List α) (i : ℤ) : Option α :=
  match normIdx l.length i with
  | some j => l.get? j
  | none => none

/-- `del l[i]` with Python indexing (only used after a successful `pyGet`
at the same index, so the out-of-range branch is irrelevant). -/
def pyErase {α : Type} (l : List α) (i : ℤ) : List α :=
  match normIdx l.length i with
  | some j => l.eraseIdx j
  | none => l

/-- Body of `skip_weekend`'s `while dt.weekday() >= 5` loop, on explicit
fuel; the loop advances at most twice (Saturday needs 2 steps, Sunday 1),
so fuel 7 is more than the loop can ever use. -/
def skipWeekendAux : ℕ → ℕ → ℕ
  | 0, d => d
  | n + 1, d => if d % 7 ≥ 5 then skipWeekendAux n (d + 1) else d

/-- `skip_weekend(dt)`: advance one day at a time while the date falls on
Saturday or Sunday. -/
def skip_weekend (d : ℕ) : ℕ := skipWeekendAux 7 d

/-- The test `member in schedule_restrictions and schedule_date in
schedule_restrictions[member]` from `check_can_schedule`. -/
def dateBlocked (restr : Restr) (member : DevName) (d : ℕ) : Bool :=
  match restr.lookup member with
  | none => false
  | some ds => decide (d ∈ ds)

/-- `check_can_schedule(pair, schedule_restrictions, schedule_date)`: the
loop over the two members returns `False` as soon as one is restricted. -/
def check_can_schedule (pair : SPair) (restr : Restr) (d : ℕ) : Bool :=
  !(dateBlocked restr pair.1 d) && !(dateBlocked restr pair.2 d)

/-- The index formula `int(np.ceil(np.random.rand() * (len(pairs) - 1)))`
from `get_schedule_pair_idx`, for one draw `u` and pool size `n`
(`len(pairs) - 1` is computed in `ℤ`, as in Python). -/
def randIdx (u : ℚ) (n : ℕ) : ℤ := ⌈u * ((n : ℚ) - 1)⌉

/-- The `while attempts < 10 and not can_schedule` loop of
`get_schedule_pair_idx`, on fuel.  State: stream cursor `pos`, the
`attempts` counter (which the source never increments), the current
`rand_pair_idx` and `can_schedule`.  On normal exit it returns the last
index together with the stream cursor. -/
def pairIdxLoop (pairs : List SPair) (restr : Restr) (d : ℕ) (ρ : RandStream) :
    ℕ → ℕ → ℕ → ℤ → Bool → Res (ℤ × ℕ)
  | 0, _, _, _, _ => .timeout
  | fuel + 1, pos, attempts, idx, canSched =>
    if attempts < 10 && !canSched then
      match pyGet pairs (randIdx (ρ pos) pairs.length) with
      | none => .err
      | some pr =>
        pairIdxLoop pairs restr d ρ fuel (pos + 1) attempts
          (randIdx (ρ pos) pairs.length) (check_can_schedule pr restr d)
    else .ok (idx, pos)

/-- `get_schedule_pair_idx(pairs, schedule_restrictions, schedule_date)`:
initial state `can_schedule = False`, `attempts = 0`, `rand_pair_idx = 0`. -/
def get_schedule_pair_idx (fuel : ℕ) (pairs : List SPair) (restr : Restr)
    (d : ℕ) (ρ : RandStream) (pos : ℕ) : Res (ℤ × ℕ) :=
  pairIdxLoop pairs restr d ρ fuel pos 0 0 false

/-- One entry of the schedule built by `build_schedule_order`:
`{'pair': pair, 'date': current_date}`. -/
structure Slot where
  pair : SPair
  date : ℕ
deriving DecidableEq

/-- The `for day in range(days)` loop of `build_schedule_order`: re-skip
the weekend, draw a pair index, read and delete that pair from the pool,
append the slot, advance one calendar day. -/
def buildLoop (fuel : ℕ) (restr : Restr) (ρ : RandStream) :
    ℕ → List SPair → ℕ → ℕ → List Slot → Res (List Slot)
  | 0, _, _, _, sched => .ok sched
  | rem + 1, pool, cur, pos, sched =>
    match get_schedule_pair_idx fuel pool restr (skip_weekend cur) ρ pos with
    | .timeout => .timeout
    | .err => .err
    | .ok (i, pos2) =>
      match pyGet pool i with
      | none => .err
      | some pr =>
        buildLoop fuel restr ρ rem (pyErase pool i) (skip_weekend cur + 1) pos2
          (sched ++ [⟨pr, skip_weekend cur⟩])

/-- `build_schedule_order(dev_pairs, schedule_restrictions, start_date,
days)`: `days = None` defaults to the pair count; the start date is
weekend-skipped once up front and again at the top of every iteration. -/
def build_schedule_order (fuel : ℕ) (dev_pairs : List SPair) (restr : Restr)
    (start_date : ℕ) (days : Option ℕ) (ρ : RandStream) : Res (List Slot) :=
  buildLoop fuel restr ρ (days.getD dev_pairs.length) dev_pairs
    (skip_weekend start_date) 0 []

/-- Constant random stream used for concrete runs. -/
def constHalf : RandStream := fun _ => 1 / 2

/-! Basic facts about the embedded date and list primitives. -/

lemma skipWeekendAux_succ (n d : ℕ) :
    skipWeekendAux (n + 1) d = if d % 7 ≥ 5 then skipWeekendAux n (d + 1) else d := rfl

lemma skip_weekend_eq (d : ℕ) :
    skip_weekend d = if d % 7 = 5 then d + 2 else if d % 7 = 6 then d + 1 else d := by
  have h7 : d % 7 < 7 := Nat.mod_lt _ (by norm_num)
  have hstep : ∀ e : ℕ, skipWeekendAux 7 e = if e % 7 ≥ 5 then skipWeekendAux 6 (e + 1) else e :=
    fun e => rfl
  have hstep6 : ∀ e : ℕ, skipWeekendAux 6 e = if e % 7 ≥ 5 then skipWeekendAux 5 (e + 1) else e :=
    fun e => rfl
  have hstep5 : ∀ e : ℕ, skipWeekendAux 5 e = if e % 7 ≥ 5 then skipWeekendAux 4 (e + 1) else e :=
    fun e => rfl
  by_cases h5 : d % 7 = 5
  · have h1 : (d + 1) % 7 = 6 := by omega
    have h2 : (d + 2) % 7 = 0 := by omega
    rw [if_pos h5]
    show skipWeekendAux 7 d = d + 2
    rw [hstep d, if_pos (by omega), hstep6 (d + 1), if_pos (by omega),
      hstep5 (d + 1 + 1), if_neg (by omega)]
  · by_cases h6 : d % 7 = 6
    · have h1 : (d + 1) % 7 = 0 := by omega
      rw [if_neg h5, if_pos h6]
      show skipWeekendAux 7 d = d + 1
      rw [hstep d, if_pos (by omega), hstep6 (d + 1), if_neg (by omega)]
    · rw [if_neg h5, if_neg h6]
      show skipWeekendAux 7 d = d
      rw [hstep d, if_neg (by omega)]

lemma skip_weekend_mod (d : ℕ) : skip_weekend d % 7 < 5 := by
  rw [skip_weekend_eq]
  split
  · omega
  · split <;> omega

lemma skip_weekend_le (d : ℕ) : d ≤ skip_weekend d := by
  rw [skip_weekend_eq]
  split
  · omega
  · split <;> omega

lemma skip_weekend_of_weekday {d : ℕ} (h : d % 7 < 5) : skip_weekend d = d := by
  rw [skip_weekend_eq]
  split
  · omega
  · split <;> omega

lemma skip_weekend_idem (d : ℕ) : skip_weekend (skip_weekend d) = skip_weekend d :=
  skip_weekend_of_weekday (skip_weekend_mod d)

lemma skip_weekend_sat {d : ℕ} (h : d % 7 = 5) : skip_weekend d = d + 2 := by
  rw [skip_weekend_eq, if_pos h]

lemma normIdx_some_lt {len : ℕ} {i : ℤ} {j : ℕ} (h : normIdx len i = some j) :
    j < len := by
  unfold normIdx at h
  split at h
  · split at h
    · injection h with h
      omega
    · exact absurd h (by simp)
  · split at h
    · injection h with h
      omega
    · exact absurd h (by simp)

lemma pyGet_eq_get? {α : Type} {l : List α} {i : ℤ} {j : ℕ}
    (h : normIdx l.length i = some j) : pyGet l i = l.get? j := by
  unfold pyGet
  rw [h]

lemma pyGet_some_mem {α : Type} {l : List α} {i : ℤ} {a : α}
    (h : pyGet l i = some a) : a ∈ l := by
  unfold pyGet at h
  rcases hn : normIdx l.length i with _ | j
  · rw [hn] at h
    exact absurd h (by simp)
  · rw [hn] at h
    exact List.get?_mem h

lemma pyGet_nil {α : Type} (i : ℤ) : pyGet ([] : List α) i = none := by
  unfold pyGet
  simp only [List.length_nil]
  rcases hn : normIdx 0 i with _ | j
  · rfl
  · have := normIdx_some_lt hn
    omega

lemma get?_cons_eraseIdx_perm {α : Type} :
    ∀ (l : List α) (j : ℕ) (a : α), l.get? j = some a →
      List.Perm (a :: l.eraseIdx j) l := by
  intro l
  induction l with
  | nil => intro j a h; simp at h
  | cons b t ih =>
    intro j a h
    cases j with
    | zero =>
      simp only [List.get?] at h
      injection h with h
      subst h
      exact List.Perm.refl _
    | succ j =>
      simp only [List.get?] at h
      have hp := ih j a h
      have h1 : (b :: t).eraseIdx (j + 1) = b :: t.eraseIdx j := rfl
      rw [h1]
      exact (List.Perm.swap b a _).trans (List.Perm.cons b hp)

lemma pyGet_cons_erase_perm {α : Type} {l : List α} {i : ℤ} {a : α}
    (h : pyGet l i = some a) : List.Perm (a :: pyErase l i) l := by
  unfold pyGet at h
  rcases hn : normIdx l.length i with _ | j
  · rw [hn] at h
    exact absurd h (by simp)
  · rw [hn] at h
    unfold pyErase
    rw [hn]
    exact get?_cons_eraseIdx_perm l j a h

lemma pyErase_length {α : Type} {l : List α} {i : ℤ} {a : α}
    (h : pyGet l i = some a) : (pyErase l i).length + 1 = l.length := by
  have hp := (pyGet_cons_erase_perm h).length_eq
  simpa using hp

lemma randIdx_bounds {u : ℚ} {n : ℕ} (h0 : 0 ≤ u) (h1 : u < 1) (hn : 1 ≤ n) :
    0 ≤ randIdx u n ∧ randIdx u n < (n : ℤ) := by
  have hcast : (0 : ℚ) ≤ (n : ℚ) - 1 := by
    have : (1 : ℚ) ≤ (n : ℚ) := by exact_mod_cast hn
    linarith
  constructor
  · exact Int.ceil_nonneg (mul_nonneg h0 hcast)
  · have hle : u * ((n : ℚ) - 1) ≤ ((n : ℤ) - 1 : ℤ) := by
      push_cast
      nlinarith
    have := Int.ceil_le.mpr hle
    unfold randIdx
    omega

lemma randIdx_one (u : ℚ) : randIdx u 1 = 0 := by
  unfold randIdx
  norm_num

lemma pyGet_exists {α : Type} {l : List α} {i : ℤ} (h0 : 0 ≤ i)
    (h1 : i < (l.length : ℤ)) : ∃ a, pyGet l i = some a := by
  have hn : normIdx l.length i = some i.toNat := by
    unfold normIdx
    rw [if_pos h0, if_pos h1]
  rw [pyGet_eq_get? hn]
  have hlt : i.toNat < l.length := by omega
  exact ⟨l.get ⟨i.toNat, hlt⟩, List.get?_eq_get hlt⟩

/-- Core of the C1 bug: `attempts` is never incremented, so whenever every
pair in a nonempty pool fails `check_can_schedule` for the date, the retry
loop never exits, whatever the random draws are and however much fuel it
is given. -/
lemma pairIdxLoop_blocked {pairs : List SPair} {restr : Restr} {d : ℕ}
    {ρ : RandStream} (hρ : ∀ k, 0 ≤ ρ k ∧ ρ k < 1) (hne : pairs ≠ [])
    (hblock : ∀ p ∈ pairs, check_can_schedule p restr d = false) :
    ∀ fuel pos idx, pairIdxLoop pairs restr d ρ fuel pos 0 idx false = .timeout := by
  intro fuel
  induction fuel with
  | zero => intro pos idx; rfl
  | succ fuel ih =>
    intro pos idx
    have hn : 1 ≤ pairs.length := List.length_pos.mpr hne
    obtain ⟨hge, hlt⟩ := randIdx_bounds (hρ pos).1 (hρ pos).2 hn
    obtain ⟨p, hp⟩ := pyGet_exists hge (by exact_mod_cast hlt)
    simp only [pairIdxLoop, hp]
    rw [hblock p (pyGet_some_mem hp)]
    exact ih (pos + 1) _

/-- Claim C1 (code bug): the spec, and the function's own docstring, say the
randomized compliance search is capped at 10 attempts and falls back to the
last tried pair, so a restriction blocking every pair still yields a slot.
The code never increments `attempts`, so in exactly that situation
`get_schedule_pair_idx` loops forever: for every amount of fuel, every
stream of in-range random draws and every nonempty, fully blocked pool, the
run is still looping when the fuel runs out. -/
theorem claim_C1 (pairs : List SPair) (restr : Restr) (d : ℕ) (ρ : RandStream)
    (hρ : ∀ k, 0 ≤ ρ k ∧ ρ k < 1) (hne : pairs ≠ [])
    (hblock : ∀ p ∈ pairs, check_can_schedule p restr d = false) :
    ∀ fuel pos, get_schedule_pair_idx fuel pairs restr d ρ pos = .timeout := by
  intro fuel pos
  exact pairIdxLoop_blocked hρ hne hblock fuel pos 0

/-- Witness for C1 at a concrete blocked input: one pair `("a","b")`, a
restriction keeping "a" off date 0, asked to schedule date 0; even with
fuel 25 (beyond the documented 10-attempt cap) the loop is still running. -/
theorem claim_C1_witness :
    get_schedule_pair_idx 25 [("a", "b")] [("a", [0])] 0 constHalf 0 = .timeout := by
  apply claim_C1
  · intro k
    constructor <;> norm_num [constHalf]
  · simp
  · intro p hp
    simp only [List.mem_singleton] at hp
    subst hp
    decide

/-- Claim C2 (code bug): the spec and the source comments describe the
draw as uniform over the pool, index `0 .. n-1` each with probability
`1/n`.  The formula `ceil(u * (n-1))` instead maps every draw in the open
interval `(0,1)` to an index in `1 .. n-1` (so index 0 is only produced by
the measure-zero draw `u = 0`): for a pool of `n ≥ 2` pairs the first pair
is essentially never selected, contradicting uniformity. -/
theorem claim_C2 (n : ℕ) (hn : 2 ≤ n) :
    (∀ u : ℚ, 0 < u → u < 1 → 1 ≤ randIdx u n ∧ randIdx u n ≤ (n : ℤ) - 1) ∧
      randIdx 0 n = 0 := by
  constructor
  · intro u hu0 hu1
    have hcast : (0 : ℚ) < (n : ℚ) - 1 := by
      have : (2 : ℚ) ≤ (n : ℚ) := by exact_mod_cast hn
      linarith
    constructor
    · exact Int.ceil_pos.mpr (mul_pos hu0 hcast)
    · apply Int.ceil_le.mpr
      push_cast
      nlinarith
  · unfold randIdx
    simp

/-- Witness for C2 at `n = 2`, `u = 1/2`: the draw lands on index 1, and
index 0 arises only from the draw `u = 0`. -/
theorem claim_C2_witness :
    (1 ≤ randIdx (1 / 2 : ℚ) 2 ∧ randIdx (1 / 2 : ℚ) 2 ≤ (2 : ℤ) - 1) ∧
      randIdx 0 2 = 0 :=
  ⟨(claim_C2 2 (by norm_num)).1 (1 / 2) (by norm_num) (by norm_num),
    (claim_C2 2 (by norm_num)).2⟩

/-- Normal-return test on a fuelled run result. -/
def Res.isOk {α : Type} : Res α → Bool
  | .ok _ => true
  | .err => false
  | .timeout => false

lemma check_can_schedule_empty (p : SPair) (d : ℕ) :
    check_can_schedule p [] d = true := rfl

/-- With no restrictions the retry loop accepts the very first draw, so
two units of fuel suffice and the loop returns that draw's index together
with the advanced stream cursor. -/
lemma pairIdxLoop_empty_restr (pool : List SPair) (d : ℕ) (ρ : RandStream)
    (hρ : ∀ k, 0 ≤ ρ k ∧ ρ k < 1) (hne : pool ≠ []) :
    ∀ fuel pos, 2 ≤ fuel →
      pairIdxLoop pool [] d ρ fuel pos 0 0 false =
        .ok (randIdx (ρ pos) pool.length, pos + 1) := by
  intro fuel pos hf
  obtain ⟨f, rfl⟩ : ∃ f, fuel = f + 2 := ⟨fuel - 2, by omega⟩
  have hn : 1 ≤ pool.length := List.length_pos.mpr hne
  obtain ⟨hge, hlt⟩ := randIdx_bounds (hρ pos).1 (hρ pos).2 hn
  obtain ⟨p, hp⟩ := pyGet_exists hge (by exact_mod_cast hlt)
  have hc : check_can_schedule p [] d = true := rfl
  show pairIdxLoop pool [] d ρ (f + 1 + 1) pos 0 0 false = _
  rw [show pairIdxLoop pool [] d ρ (f + 1 + 1) pos 0 0 false =
      (if (decide (0 < 10) && !false) = true then
        match pyGet pool (randIdx (ρ pos) pool.length) with
        | none => Res.err
        | some pr =>
          pairIdxLoop pool [] d ρ (f + 1) (pos + 1) 0
            (randIdx (ρ pos) pool.length) (check_can_schedule pr [] d)
      else .ok (0, pos)) from rfl]
  rw [if_pos (by norm_num), hp]
  show pairIdxLoop pool [] d ρ (f + 1) (pos + 1) 0
    (randIdx (ρ pos) pool.length) (check_can_schedule p [] d) = _
  rw [hc]
  rw [show pairIdxLoop pool [] d ρ (f + 1) (pos + 1) 0
      (randIdx (ρ pos) pool.length) true =
      (if (decide (0 < 10) && !true) = true then
        match pyGet pool (randIdx (ρ (pos + 1)) pool.length) with
        | none => Res.err
        | some pr =>
          pairIdxLoop pool [] d ρ f (pos + 1 + 1) 0
            (randIdx (ρ (pos + 1)) pool.length) (check_can_schedule pr [] d)
      else .ok (randIdx (ρ pos) pool.length, pos + 1)) from rfl]
  rw [if_neg (by norm_num)]

/-- A run of the placement loop that returns normally satisfies the
output invariants: one slot per remaining day, weekday-only strictly
increasing dates starting at the weekend-skipped cursor, and scheduled
pairs drawn without repetition from the pool. -/
lemma buildLoop_ok (fuel : ℕ) (restr : Restr) (ρ : RandStream) :
    ∀ rem pool cur pos sched s,
      buildLoop fuel restr ρ rem pool cur pos sched = .ok s →
      ∃ tail, s = sched ++ tail ∧ tail.length = rem ∧
        (tail.map Slot.pair).Subperm pool ∧
        (∀ t ∈ tail, t.date % 7 < 5 ∧ skip_weekend cur ≤ t.date) ∧
        List.Chain' (· < ·) (tail.map Slot.date) ∧
        (0 < rem → (tail.map Slot.date).head? = some (skip_weekend cur)) := by
  intro rem
  induction rem with
  | zero =>
    intro pool cur pos sched s h
    injection h with h
    refine ⟨[], by simp [h], rfl, List.nil_subperm, by simp, by simp,
      fun hlt => absurd hlt (lt_irrefl 0)⟩
  | succ rem ih =>
    intro pool cur pos sched s h
    simp only [buildLoop] at h
    rcases hg : get_schedule_pair_idx fuel pool restr (skip_weekend cur) ρ pos with ⟨i, pos2⟩ | _ | _
    · simp only [hg] at h
      rcases hp : pyGet pool i with _ | p
      · simp only [hp] at h
        exact Res.noConfusion h
      · simp only [hp] at h
        obtain ⟨tail2, hs2, hlen2, hsub2, hdates2, hchain2, hhead2⟩ := ih _ _ _ _ _ h
        refine ⟨⟨p, skip_weekend cur⟩ :: tail2, ?_, ?_, ?_, ?_, ?_, ?_⟩
        · rw [hs2]; simp
        · simp [hlen2]
        · have h2 : (p :: tail2.map Slot.pair).Subperm (p :: pyErase pool i) :=
            (List.subperm_cons p).mpr hsub2
          simpa using h2.trans (pyGet_cons_erase_perm hp).subperm
        · intro t ht
          rcases List.mem_cons.mp ht with rfl | ht2
          · exact ⟨skip_weekend_mod cur, le_refl _⟩
          · obtain ⟨hm, hge⟩ := hdates2 t ht2
            have hle := skip_weekend_le (skip_weekend cur + 1)
            exact ⟨hm, by omega⟩
        · cases tail2 with
          | nil => simp
          | cons t2 rest2 =>
            have hh := hhead2 (by rw [← hlen2]; simp)
            simp only [List.map_cons, List.head?] at hh
            injection hh with hh
            simp only [List.map_cons]
            refine List.chain'_cons.mpr ⟨?_, by simpa using hchain2⟩
            have hle := skip_weekend_le (skip_weekend cur + 1)
            omega
        · intro _
          simp
    · simp only [hg] at h
      exact Res.noConfusion h
    · simp only [hg] at h
      exact Res.noConfusion h

/-- With more days requested than pairs in the pool the placement loop can
never return normally: once the pool empties the indexing raises, so `.ok`
is unreachable for every fuel, restriction map and stream. -/
lemma buildLoop_no_ok (fuel : ℕ) (restr : Restr) (ρ : RandStream) :
    ∀ rem pool cur pos sched s, pool.length < rem →
      buildLoop fuel restr ρ rem pool cur pos sched ≠ .ok s := by
  intro rem
  induction rem with
  | zero =>
    intro pool cur pos sched s hlen
    omega
  | succ rem ih =>
    intro pool cur pos sched s hlen h
    simp only [buildLoop] at h
    rcases hg : get_schedule_pair_idx fuel pool restr (skip_weekend cur) ρ pos with ⟨i, pos2⟩ | _ | _
    · simp only [hg] at h
      rcases hp : pyGet pool i with _ | p
      · simp only [hp] at h
        exact Res.noConfusion h
      · simp only [hp] at h
        have hl : (pyErase pool i).length < rem := by
          have := pyErase_length hp
          omega
        exact ih _ _ _ _ s hl h
    · simp only [hg] at h
      exact Res.noConfusion h
    · simp only [hg] at h
      exact Res.noConfusion h

/-- With no restrictions, enough fuel and more days than pairs, the run
ends in an uncaught IndexError (the empty pool is indexed). -/
lemma buildLoop_err (fuel : ℕ) (ρ : RandStream)
    (hρ : ∀ k, 0 ≤ ρ k ∧ ρ k < 1) (hf : 2 ≤ fuel) :
    ∀ rem pool cur pos sched, pool.length < rem →
      buildLoop fuel [] ρ rem pool cur pos sched = .err := by
  intro rem
  induction rem with
  | zero =>
    intro pool cur pos sched hlen
    omega
  | succ rem ih =>
    intro pool cur pos sched hlen
    cases pool with
    | nil =>
      have hinner : pairIdxLoop [] [] (skip_weekend cur) ρ fuel pos 0 0 false = .err := by
        obtain ⟨f, rfl⟩ : ∃ f, fuel = f + 2 := ⟨fuel - 2, by omega⟩
        rw [show pairIdxLoop [] [] (skip_weekend cur) ρ (f + 1 + 1) pos 0 0 false =
            (if (decide (0 < 10) && !false) = true then
              match pyGet ([] : List SPair) (randIdx (ρ pos) (List.length ([] : List SPair))) with
              | none => Res.err
              | some pr =>
                pairIdxLoop [] [] (skip_weekend cur) ρ (f + 1) (pos + 1) 0
                  (randIdx (ρ pos) (List.length ([] : List SPair)))
                  (check_can_schedule pr [] (skip_weekend cur))
            else .ok (0, pos)) from rfl]
        rw [if_pos (by norm_num), pyGet_nil]
      simp only [buildLoop, get_schedule_pair_idx, hinner]
    | cons q qs =>
      have hne : (q :: qs : List SPair) ≠ [] := List.cons_ne_nil _ _
      have hstep := pairIdxLoop_empty_restr (q :: qs) (skip_weekend cur) ρ hρ hne fuel pos hf
      have hn : 1 ≤ (q :: qs).length := List.length_pos.mpr hne
      obtain ⟨hge, hlt⟩ := randIdx_bounds (hρ pos).1 (hρ pos).2 hn
      obtain ⟨p, hp⟩ := pyGet_exists hge (by exact_mod_cast hlt)
      have hl : (pyErase (q :: qs) (randIdx (ρ pos) (q :: qs).length)).length < rem := by
        have := pyErase_length hp
        omega
      simp only [buildLoop, get_schedule_pair_idx, hstep, hp]
      exact ih _ _ _ _ hl

/-- With no restrictions, enough fuel and at most as many days as pairs,
the placement loop returns normally. -/
lemma buildLoop_total (fuel : ℕ) (ρ : RandStream)
    (hρ : ∀ k, 0 ≤ ρ k ∧ ρ k < 1) (hf : 2 ≤ fuel) :
    ∀ rem pool cur pos sched, rem ≤ pool.length →
      ∃ s, buildLoop fuel [] ρ rem pool cur pos sched = .ok s := by
  intro rem
  induction rem with
  | zero =>
    intro pool cur pos sched _
    exact ⟨sched, rfl⟩
  | succ rem ih =>
    intro pool cur pos sched hlen
    have hne : pool ≠ [] := by
      intro hnil
      rw [hnil] at hlen
      simp at hlen
    have hstep := pairIdxLoop_empty_restr pool (skip_weekend cur) ρ hρ hne fuel pos hf
    have hn : 1 ≤ pool.length := List.length_pos.mpr hne
    obtain ⟨hge, hlt⟩ := randIdx_bounds (hρ pos).1 (hρ pos).2 hn
    obtain ⟨p, hp⟩ := pyGet_exists hge (by exact_mod_cast hlt)
    have hl : rem ≤ (pyErase pool (randIdx (ρ pos) pool.length)).length := by
      have := pyErase_length hp
      omega
    obtain ⟨s, hs⟩ := ih (pyErase pool (randIdx (ρ pos) pool.length))
      (skip_weekend cur + 1) (pos + 1) (sched ++ [⟨p, skip_weekend cur⟩]) hl
    refine ⟨s, ?_⟩
    simp only [buildLoop, get_schedule_pair_idx, hstep, hp, hs]

/-- Claim C3, amended: a call with more requested slots than supplied pairs
is never silently truncated — no `.ok` result exists at all — and whenever
the per-date retry search terminates (in particular with no restrictions)
the run fails with an uncaught IndexError at the emptied pool, which is how
the code surfaces PairPoolExhausted.  (The unqualified claim is false: see
the counterexample, where a restriction blocking every pair makes the call
hang in the retry loop instead of surfacing any failure.) -/
theorem claim_C3 :
    (∀ (fuel : ℕ) (dev_pairs : List SPair) (restr : Restr) (start days : ℕ)
        (ρ : RandStream) (s : List Slot), dev_pairs.length < days →
        build_schedule_order fuel dev_pairs restr start (some days) ρ ≠ .ok s) ∧
      (∀ (fuel : ℕ) (dev_pairs : List SPair) (start days : ℕ) (ρ : RandStream),
        (∀ k, 0 ≤ ρ k ∧ ρ k < 1) → dev_pairs.length < days → 2 ≤ fuel →
        build_schedule_order fuel dev_pairs [] start (some days) ρ = .err) := by
  constructor
  · intro fuel devp restr start days ρ s hlen
    exact buildLoop_no_ok fuel restr ρ days devp (skip_weekend start) 0 [] s hlen
  · intro fuel devp start days ρ hρ hlen hf
    exact buildLoop_err fuel ρ hρ hf days devp (skip_weekend start) 0 [] hlen

/-- Witness for C3: one pair, two requested slots, no restrictions — the
run raises (models PairPoolExhausted), it does not truncate to one slot. -/
theorem claim_C3_witness :
    build_schedule_order 2 [("a", "b")] [] 0 (some 2) constHalf = .err :=
  claim_C3.2 2 [("a", "b")] 0 2 constHalf
    (fun _ => ⟨by norm_num [constHalf], by norm_num [constHalf]⟩)
    (by decide) (by norm_num)

/-- Counterexample to C3 as stated: with one pair, two requested slots and
a restriction blocking dev "a" on the very first scheduling date, the call
neither surfaces a failure nor truncates — it is still inside the retry
loop after 1000 iterations (and, by `pairIdxLoop_blocked`, after any
number), because the pool-exhaustion error is never reached. -/
theorem claim_C3_counterexample :
    build_schedule_order 1000 [("a", "b")] [("a", [0])] 0 (some 2) constHalf = .timeout := by
  have hρ : ∀ k, 0 ≤ constHalf k ∧ constHalf k < 1 :=
    fun _ => ⟨by norm_num [constHalf], by norm_num [constHalf]⟩
  have hblock : ∀ p ∈ [((("a" : String), ("b" : String)))],
      check_can_schedule p [("a", [0])] 0 = false := by decide
  have hinner : get_schedule_pair_idx 1000 [("a", "b")] [("a", [0])] 0 constHalf 0 = .timeout :=
    pairIdxLoop_blocked hρ (by decide) hblock 1000 0 0
  show buildLoop 1000 [("a", [0])] constHalf 2 [("a", "b")] (skip_weekend 0) 0 [] = .timeout
  simp only [buildLoop]
  rw [show skip_weekend (skip_weekend 0) = 0 from rfl, hinner]

/-- Claim C4: whenever the placement engine returns a schedule, it has
exactly `days` slots, the dates are strictly increasing weekdays, the
scheduled pairs are drawn from the supplied pool without repetition, and a
Saturday start puts the first slot on the following Monday; moreover with
no restrictions, in-range draws, enough fuel and `days` at most the pair
count, the engine does return a schedule. -/
theorem claim_C4 :
    (∀ (fuel : ℕ) (dev_pairs : List SPair) (restr : Restr) (start days : ℕ)
        (ρ : RandStream) (s : List Slot),
        build_schedule_order fuel dev_pairs restr start (some days) ρ = .ok s →
        s.length = days ∧ (∀ t ∈ s, t.date % 7 < 5) ∧
          List.Chain' (· < ·) (s.map Slot.date) ∧
          (s.map Slot.pair).Subperm dev_pairs ∧
          (0 < days → start % 7 = 5 → (s.map Slot.date).head? = some (start + 2))) ∧
      (∀ (fuel : ℕ) (dev_pairs : List SPair) (start days : ℕ) (ρ : RandStream),
        (∀ k, 0 ≤ ρ k ∧ ρ k < 1) → days ≤ dev_pairs.length → 2 ≤ fuel →
        (build_schedule_order fuel dev_pairs [] start (some days) ρ).isOk = true) := by
  constructor
  · intro fuel devp restr start days ρ s h
    obtain ⟨tail, hs, hlen, hsub, hdates, hchain, hhead⟩ :=
      buildLoop_ok fuel restr ρ days devp (skip_weekend start) 0 [] s h
    have hs' : s = tail := by simpa using hs
    subst hs'
    refine ⟨hlen, fun t ht => (hdates t ht).1, hchain, hsub, ?_⟩
    intro hd hsat
    have hh := hhead hd
    rw [skip_weekend_idem, skip_weekend_sat hsat] at hh
    exact hh
  · intro fuel devp start days ρ hρ hlen hf
    obtain ⟨s, hs⟩ := buildLoop_total fuel ρ hρ hf days devp (skip_weekend start) 0 [] hlen
    rw [show build_schedule_order fuel devp [] start (some days) ρ =
        buildLoop fuel [] ρ days devp (skip_weekend start) 0 [] from rfl, hs]
    rfl

/-- Witness for C4: a one-pair pool scheduled for one day starting Monday 0
returns exactly the slot `{pair ("a","b"), date 0}`; a Saturday start
(date 5) puts the slot on the following Monday (date 7 = 5 + 2); and the
no-restriction totality part applies concretely. -/
theorem claim_C4_witness :
    ([⟨("a", "b"), 0⟩] : List Slot).length = 1 ∧
      (List.map Slot.date [(⟨("a", "b"), 7⟩ : Slot)]).head? = some (5 + 2) ∧
      (build_schedule_order 2 [("a", "b")] [] 0 (some 1) constHalf).isOk = true := by
  have hρ : ∀ k, 0 ≤ constHalf k ∧ constHalf k < 1 :=
    fun _ => ⟨by norm_num [constHalf], by norm_num [constHalf]⟩
  have hne : ([("a", "b")] : List SPair) ≠ [] := by decide
  have hok : build_schedule_order 2 [("a", "b")] [] 0 (some 1) constHalf =
      .ok [⟨("a", "b"), 0⟩] := by
    have hstep := pairIdxLoop_empty_restr [("a", "b")] 0 constHalf hρ hne 2 0 (by norm_num)
    rw [show ([("a", "b")] : List SPair).length = 1 from rfl, randIdx_one] at hstep
    show buildLoop 2 [] constHalf 1 [("a", "b")] 0 0 [] = _
    simp only [buildLoop, get_schedule_pair_idx]
    rw [show skip_weekend 0 = 0 from rfl, hstep]
    rfl
  have hok7 : build_schedule_order 2 [("a", "b")] [] 5 (some 1) constHalf =
      .ok [⟨("a", "b"), 7⟩] := by
    have hstep := pairIdxLoop_empty_restr [("a", "b")] 7 constHalf hρ hne 2 0 (by norm_num)
    rw [show ([("a", "b")] : List SPair).length = 1 from rfl, randIdx_one] at hstep
    show buildLoop 2 [] constHalf 1 [("a", "b")] 7 0 [] = _
    simp only [buildLoop, get_schedule_pair_idx]
    rw [show skip_weekend 7 = 7 from rfl, hstep]
    rfl
  refine ⟨(claim_C4.1 2 [("a", "b")] [] 0 1 constHalf [⟨("a", "b"), 0⟩] hok).1, ?_, ?_⟩
  · exact (claim_C4.1 2 [("a", "b")] [] 5 1 constHalf [⟨("a", "b"), 7⟩] hok7).2.2.2.2
      (by norm_num) (by norm_num)
  · exact claim_C4.2 2 [("a", "b")] 0 1 constHalf hρ (by decide) (by norm_num)

/-! Embedding of the pairing engine (`get_ideal_pair` through
`build_pairs`), with the reference cohort from `genetic.py`. -/

def MAX_VAL : ℤ := 5

def MIN_VAL : ℤ := 1

/-- A developer record: name plus per-repo knowledge levels (a Python dict
in insertion order). -/
structure Dev where
  name : DevName
  repos : List (String × ℤ)
deriving DecidableEq

/-- The loop of `get_ideal_pair`, building the complementary dict entry by
entry in iteration order. -/
def idealPairAux : List (String × ℤ) → List (String × ℤ)
  | [] => []
  | p :: rest => (p.1, MAX_VAL - p.2 + MIN_VAL) :: idealPairAux rest

/-- `get_ideal_pair(dev)`: per repo, `MAX_VAL - value + MIN_VAL`. -/
def get_ideal_pair (dev : Dev) : List (String × ℤ) := idealPairAux dev.repos

/-- `get_ideal_dev_pairs(devs)`: dict from dev name to ideal-pair dict. -/
def get_ideal_dev_pairs (devs : List Dev) : List (DevName × List (String × ℤ)) :=
  devs.map (fun d => (d.name, get_ideal_pair d))

/-- The loop of `diff_heuristic` over `dev1`'s repos; looking a repo up in
`dev2` can raise KeyError (`none`). -/
def diffAux (dev2 : List (String × ℤ)) : List (String × ℤ) → Option ℤ
  | [] => some 0
  | p :: rest =>
    match dev2.lookup p.1 with
    | none => none
    | some w => (diffAux dev2 rest).map (fun s => |p.2 - w| + s)

/-- `diff_heuristic(dev1, dev2)`: sum over `dev1`'s repos of the absolute
difference between `dev1[repo]` and `dev2[repo]`. -/
def diff_heuristic (dev1 dev2 : List (String × ℤ)) : Option ℤ := diffAux dev2 dev1

/-- One entry `{'name': ..., 'diff': ...}` of a ranked match list. -/
structure MatchEntry where
  name : DevName
  diff : ℤ
deriving DecidableEq

/-- `reorder_ranks(ranks, allowed_ranks)`: stable ascending sort by diff
(Python's `sorted` is stable; insertion sort with a total `≤` test places
each element before later-arriving equals, which is the same order),
optionally truncated. -/
def reorder_ranks (ranks : List MatchEntry) (allowed_ranks : Option ℕ) :
    List MatchEntry :=
  match allowed_ranks with
  | none => List.insertionSort (fun a b => a.diff ≤ b.diff) ranks
  | some k => (List.insertionSort (fun a b => a.diff ≤ b.diff) ranks).take k

/-- The inner loop of `get_dev_matches`: one `{'name','diff'}` entry per
compare dev with a different name, in cohort order. -/
def collectMatches (match_pairs : List (String × ℤ)) (devName : DevName) :
    List Dev → Option (List MatchEntry)
  | [] => some []
  | c :: rest =>
    if c.name ≠ devName then
      match diff_heuristic match_pairs c.repos with
      | none => none
      | some d =>
        (collectMatches match_pairs devName rest).map (fun l => ⟨c.name, d⟩ :: l)
    else collectMatches match_pairs devName rest

/-- The outer loop of `get_dev_matches`, reading each dev's ideal pairs
from the `ideal_pairs` dict (KeyError when absent). -/
def getDevMatchesAux (devs : List Dev)
    (ideal_pairs : List (DevName × List (String × ℤ))) :
    List Dev → Option (List (DevName × List MatchEntry))
  | [] => some []
  | d :: rest =>
    match ideal_pairs.lookup d.name with
    | none => none
    | some mp =>
      match collectMatches mp d.name devs with
      | none => none
      | some tm =>
        (getDevMatchesAux devs ideal_pairs rest).map
          (fun l => (d.name, reorder_ranks tm none) :: l)

/-- `get_dev_matches(devs, ideal_pairs)`. -/
def get_dev_matches (devs : List Dev)
    (ideal_pairs : List (DevName × List (String × ℤ))) :
    Option (List (DevName × List MatchEntry)) :=
  getDevMatchesAux devs ideal_pairs devs

/-- One entry `{'name': ..., 'difficulty': ...}` of the difficulty list. -/
structure DiffEntry where
  name : DevName
  difficulty : ℤ
deriving DecidableEq

/-- `total_dev_pairing_difficulty(dev_matches)`: difficulty is the sum of
a dev's match diffs; the list is stably sorted most-difficult first
(`reverse=True`). -/
def total_dev_pairing_difficulty (dev_matches : List (DevName × List MatchEntry)) :
    List DiffEntry :=
  List.insertionSort (fun a b => b.difficulty ≤ a.difficulty)
    (dev_matches.map (fun p => DiffEntry.mk p.1 ((p.2.map MatchEntry.diff).sum)))

/-- The `previous_pairs` dict: dev name to list of partners to avoid. -/
abbrev PrevPairs := List (DevName × List DevName)

/-- The test `dev['name'] in previous_pairs and potential_dev['name'] in
previous_pairs[dev['name']]` from `pair_devs`. -/
def excludedBy (previous_pairs : PrevPairs) (devName potName : DevName) : Bool :=
  match previous_pairs.lookup devName with
  | none => false
  | some l => decide (potName ∈ l)

/-- The inner `for potential_dev in dev_matches[dev['name']]` loop of
`pair_devs`: skip consumed candidates, `continue` past excluded ones,
otherwise pick (`break`). -/
def scanMatches (previous_pairs : PrevPairs) (devName : DevName)
    (used : List DevName) : List MatchEntry → Option DevName
  | [] => none
  | m :: rest =>
    if m.name ∈ used then scanMatches previous_pairs devName used rest
    else if excludedBy previous_pairs devName m.name then
      scanMatches previous_pairs devName used rest
    else some m.name

/-- The outer `for dev in dev_difficulty` loop of `pair_devs`,
accumulating `dev_pairs` and `used_devs`; looking up a difficulty entry's
match list can raise KeyError (`none`). -/
def pairDevsLoop (dev_matches : List (DevName × List MatchEntry))
    (previous_pairs : PrevPairs) :
    List DiffEntry → List SPair → List DevName → Option (List SPair)
  | [], dev_pairs, _ => some dev_pairs
  | e :: rest, dev_pairs, used =>
    if e.name ∈ used then pairDevsLoop dev_matches previous_pairs rest dev_pairs used
    else
      match dev_matches.lookup e.name with
      | none => none
      | some ms =>
        match scanMatches previous_pairs e.name used ms with
        | none => pairDevsLoop dev_matches previous_pairs rest dev_pairs used
        | some pot =>
          pairDevsLoop dev_matches previous_pairs rest
            (dev_pairs ++ [(e.name, pot)]) (used ++ [e.name, pot])

/-- `pair_devs(dev_matches, dev_difficulty, previous_pairs)`. -/
def pair_devs (dev_matches : List (DevName × List MatchEntry))
    (dev_difficulty : List DiffEntry) (previous_pairs : PrevPairs) :
    Option (List SPair) :=
  pairDevsLoop dev_matches previous_pairs dev_difficulty [] []

/-- `build_pairs(devs, previous_pairs)`: the full pairing pipeline. -/
def build_pairs (devs : List Dev) (previous_pairs : PrevPairs) :
    Option (List SPair) :=
  match get_dev_matches devs (get_ideal_dev_pairs devs) with
  | none => none
  | some dm => pair_devs dm (total_dev_pairing_difficulty dm) previous_pairs

/-- The 7-participant reference cohort `TEST_DATA` from `genetic.py`. -/
def TEST_DATA : List Dev :=
  [⟨"dev1", [("repo1", 2), ("repo2", 4), ("repo3", 5)]⟩,
   ⟨"dev2", [("repo1", 5), ("repo2", 2), ("repo3", 1)]⟩,
   ⟨"dev3", [("repo1", 3), ("repo2", 3), ("repo3", 1)]⟩,
   ⟨"dev4", [("repo1", 1), ("repo2", 1), ("repo3", 1)]⟩,
   ⟨"dev5", [("repo1", 2), ("repo2", 3), ("repo3", 1)]⟩,
   ⟨"dev6", [("repo1", 4), ("repo2", 4), ("repo3", 5)]⟩,
   ⟨"dev7", [("repo1", 5), ("repo2", 5), ("repo3", 5)]⟩]

/-- Exclusion set of a participant as the spec words it: the recorded
previous partners, empty when none are recorded. -/
def exclusionSetOf (previous_pairs : PrevPairs) (devName : DevName) : List DevName :=
  (previous_pairs.lookup devName).getD []

/-- Modelled from the spec (section 4.5 wording, for the refinement claim
C7): scan the ranked match list in order and select the first candidate
that is (a) not already consumed and (b) not in this participant's
exclusion set. -/
def selectFirstCandidate (previous_pairs : PrevPairs) (devName : DevName)
    (used : List DevName) (ms : List MatchEntry) : Option DevName :=
  (ms.find? (fun m =>
    !(decide (m.name ∈ used)) &&
      !(decide (m.name ∈ exclusionSetOf previous_pairs devName)))).map MatchEntry.name

/-- Spec-worded assembler loop: iterate in difficulty order, skip consumed
participants, pair with the first admissible candidate, mark both
consumed, leave unpaired when no candidate is admissible. -/
def pairDevsSpecLoop (dev_matches : List (DevName × List MatchEntry))
    (previous_pairs : PrevPairs) :
    List DiffEntry → List SPair → List DevName → Option (List SPair)
  | [], dev_pairs, _ => some dev_pairs
  | e :: rest, dev_pairs, used =>
    if e.name ∈ used then pairDevsSpecLoop dev_matches previous_pairs rest dev_pairs used
    else
      match dev_matches.lookup e.name with
      | none => none
      | some ms =>
        match selectFirstCandidate previous_pairs e.name used ms with
        | none => pairDevsSpecLoop dev_matches previous_pairs rest dev_pairs used
        | some pot =>
          pairDevsSpecLoop dev_matches previous_pairs rest
            (dev_pairs ++ [(e.name, pot)]) (used ++ [e.name, pot])

/-- Spec-worded `assemble_pairs`, to be compared with `pair_devs`. -/
def pairDevsSpec (dev_matches : List (DevName × List MatchEntry))
    (dev_difficulty : List DiffEntry) (previous_pairs : PrevPairs) :
    Option (List SPair) :=
  pairDevsSpecLoop dev_matches previous_pairs dev_difficulty [] []

/-- Pairs are pairwise member-disjoint: no participant occurs in two
different pairs of the list. -/
def pairsDisjoint (l : List SPair) : Prop :=
  List.Pairwise (fun p q => p.1 ≠ q.1 ∧ p.1 ≠ q.2 ∧ p.2 ≠ q.1 ∧ p.2 ≠ q.2) l

/-- All participants mentioned by a pair list, in order. -/
def pairMembers (l : List SPair) : List DevName :=
  l.foldr (fun p acc => p.1 :: p.2 :: acc) []

/-! Lemmas about the greedy pair assembler. -/

lemma lookup_mem {β : Type} :
    ∀ (l : List (String × β)) (k : String) (v : β),
      l.lookup k = some v → (k, v) ∈ l := by
  intro l
  induction l with
  | nil => intro k v h; simp [List.lookup] at h
  | cons a t ih =>
    intro k v h
    obtain ⟨k2, v2⟩ := a
    simp only [List.lookup] at h
    cases hbe : (k == k2) with
    | true =>
      rw [hbe] at h
      injection h with h
      have hk := eq_of_beq hbe
      subst hk
      subst h
      exact List.mem_cons_self _ _
    | false =>
      rw [hbe] at h
      exact List.mem_cons.mpr (Or.inr (ih k v h))

lemma excludedBy_eq (previous_pairs : PrevPairs) (a b : DevName) :
    excludedBy previous_pairs a b = decide (b ∈ exclusionSetOf previous_pairs a) := by
  unfold excludedBy exclusionSetOf
  cases h : previous_pairs.lookup a with
  | none => simp
  | some l => simp

lemma excludedBy_nil (a b : DevName) : excludedBy [] a b = false := rfl

lemma scanMatches_some {previous_pairs : PrevPairs} {devName : DevName}
    {used : List DevName} :
    ∀ {ms : List MatchEntry} {pot : DevName},
      scanMatches previous_pairs devName used ms = some pot →
      (∃ m ∈ ms, MatchEntry.name m = pot) ∧ pot ∉ used ∧
        excludedBy previous_pairs devName pot = false := by
  intro ms
  induction ms with
  | nil => intro pot h; simp [scanMatches] at h
  | cons m rest ih =>
    intro pot h
    simp only [scanMatches] at h
    by_cases hu : m.name ∈ used
    · rw [if_pos hu] at h
      obtain ⟨⟨m2, hm2, hname⟩, h2, h3⟩ := ih h
      exact ⟨⟨m2, List.mem_cons.mpr (Or.inr hm2), hname⟩, h2, h3⟩
    · rw [if_neg hu] at h
      by_cases hex : excludedBy previous_pairs devName m.name = true
      · rw [if_pos hex] at h
        obtain ⟨⟨m2, hm2, hname⟩, h2, h3⟩ := ih h
        exact ⟨⟨m2, List.mem_cons.mpr (Or.inr hm2), hname⟩, h2, h3⟩
      · rw [if_neg hex] at h
        injection h with h
        subst h
        exact ⟨⟨m, List.mem_cons_self _ _, rfl⟩, hu, by simpa using hex⟩

lemma scanMatches_none {previous_pairs : PrevPairs} {devName : DevName}
    {used : List DevName} :
    ∀ {ms : List MatchEntry},
      scanMatches previous_pairs devName used ms = none →
      ∀ m ∈ ms, MatchEntry.name m ∈ used ∨
        excludedBy previous_pairs devName m.name = true := by
  intro ms
  induction ms with
  | nil => intro _ m hm; simp at hm
  | cons m rest ih =>
    intro h m2 hm2
    simp only [scanMatches] at h
    by_cases hu : m.name ∈ used
    · rw [if_pos hu] at h
      rcases List.mem_cons.mp hm2 with rfl | hm2
      · exact Or.inl hu
      · exact ih h m2 hm2
    · rw [if_neg hu] at h
      by_cases hex : excludedBy previous_pairs devName m.name = true
      · rw [if_pos hex] at h
        rcases List.mem_cons.mp hm2 with rfl | hm2
        · exact Or.inr hex
        · exact ih h m2 hm2
      · rw [if_neg hex] at h
        exact Option.noConfusion h

lemma scanMatches_eq_select (previous_pairs : PrevPairs) (devName : DevName)
    (used : List DevName) :
    ∀ ms : List MatchEntry,
      scanMatches previous_pairs devName used ms =
        selectFirstCandidate previous_pairs devName used ms := by
  intro ms
  induction ms with
  | nil => rfl
  | cons m rest ih =>
    simp only [scanMatches, selectFirstCandidate, List.find?]
    by_cases hu : m.name ∈ used
    · rw [if_pos hu]
      have hp : (!(decide (m.name ∈ used)) &&
          !(decide (m.name ∈ exclusionSetOf previous_pairs devName))) = false := by
        simp [hu]
      rw [hp]
      exact ih
    · rw [if_neg hu]
      by_cases hex : excludedBy previous_pairs devName m.name = true
      · rw [if_pos hex]
        rw [excludedBy_eq] at hex
        have hp : (!(decide (m.name ∈ used)) &&
            !(decide (m.name ∈ exclusionSetOf previous_pairs devName))) = false := by
          simp [hex, of_decide_eq_true hex]
        rw [hp]
        exact ih
      · rw [if_neg hex]
        rw [excludedBy_eq] at hex
        have hp : (!(decide (m.name ∈ used)) &&
            !(decide (m.name ∈ exclusionSetOf previous_pairs devName))) = true := by
          simp only [Bool.and_eq_true, Bool.not_eq_true']
          exact ⟨by simpa using hu, by simpa using hex⟩
        rw [hp]
        rfl

lemma pairDevsLoop_eq_specLoop (dev_matches : List (DevName × List MatchEntry))
    (previous_pairs : PrevPairs) :
    ∀ (rest : List DiffEntry) (acc : List SPair) (used : List DevName),
      pairDevsLoop dev_matches previous_pairs rest acc used =
        pairDevsSpecLoop dev_matches previous_pairs rest acc used := by
  intro rest
  induction rest with
  | nil => intro acc used; rfl
  | cons e rest ih =>
    intro acc used
    simp only [pairDevsLoop, pairDevsSpecLoop, scanMatches_eq_select]
    by_cases he : e.name ∈ used
    · rw [if_pos he, if_pos he]
      exact ih acc used
    · rw [if_neg he, if_neg he]
      cases hlk : dev_matches.lookup e.name with
      | none => rfl
      | some ms =>
        show (match selectFirstCandidate previous_pairs e.name used ms with
            | none => pairDevsLoop dev_matches previous_pairs rest acc used
            | some pot => pairDevsLoop dev_matches previous_pairs rest
                (acc ++ [(e.name, pot)]) (used ++ [e.name, pot])) =
          (match selectFirstCandidate previous_pairs e.name used ms with
            | none => pairDevsSpecLoop dev_matches previous_pairs rest acc used
            | some pot => pairDevsSpecLoop dev_matches previous_pairs rest
                (acc ++ [(e.name, pot)]) (used ++ [e.name, pot]))
        cases hs : selectFirstCandidate previous_pairs e.name used ms with
        | none => exact ih acc used
        | some pot => exact ih _ _

lemma pairDevsLoop_disjoint (dev_matches : List (DevName × List MatchEntry))
    (previous_pairs : PrevPairs) :
    ∀ (rest : List DiffEntry) (acc : List SPair) (used : List DevName) (l : List SPair),
      (∀ p ∈ acc, p.1 ∈ used ∧ p.2 ∈ used) → pairsDisjoint acc →
      pairDevsLoop dev_matches previous_pairs rest acc used = some l →
      pairsDisjoint l := by
  intro rest
  induction rest with
  | nil =>
    intro acc used l hmem hdisj h
    injection h with h
    rw [← h]
    exact hdisj
  | cons e rest ih =>
    intro acc used l hmem hdisj h
    simp only [pairDevsLoop] at h
    by_cases he : e.name ∈ used
    · rw [if_pos he] at h
      exact ih acc used l hmem hdisj h
    · rw [if_neg he] at h
      cases hlk : dev_matches.lookup e.name with
      | none =>
        rw [hlk] at h
        exact Option.noConfusion h
      | some ms =>
        rw [hlk] at h
        have h2 : (match scanMatches previous_pairs e.name used ms with
            | none => pairDevsLoop dev_matches previous_pairs rest acc used
            | some pot => pairDevsLoop dev_matches previous_pairs rest
                (acc ++ [(e.name, pot)]) (used ++ [e.name, pot])) = some l := h
        cases hs : scanMatches previous_pairs e.name used ms with
        | none =>
          rw [hs] at h2
          exact ih acc used l hmem hdisj h2
        | some pot =>
          rw [hs] at h2
          obtain ⟨_, hpotUsed, _⟩ := scanMatches_some hs
          refine ih (acc ++ [(e.name, pot)]) (used ++ [e.name, pot]) l ?_ ?_ h2
          · intro p hp
            rcases List.mem_append.mp hp with hp | hp
            · obtain ⟨h1, h2⟩ := hmem p hp
              exact ⟨List.mem_append.mpr (Or.inl h1), List.mem_append.mpr (Or.inl h2)⟩
            · simp only [List.mem_singleton] at hp
              subst hp
              exact ⟨by simp, by simp⟩
          · unfold pairsDisjoint at hdisj ⊢
            rw [List.pairwise_append]
            refine ⟨hdisj, List.pairwise_singleton _ _, ?_⟩
            intro p hp q hq
            simp only [List.mem_singleton] at hq
            subst hq
            obtain ⟨h1, h2⟩ := hmem p hp
            show p.1 ≠ e.name ∧ p.1 ≠ pot ∧ p.2 ≠ e.name ∧ p.2 ≠ pot
            exact ⟨fun hc => he (hc ▸ h1), fun hc => hpotUsed (hc ▸ h1),
              fun hc => he (hc ▸ h2), fun hc => hpotUsed (hc ▸ h2)⟩

lemma pairDevsLoop_pairs_from (dev_matches : List (DevName × List MatchEntry))
    (previous_pairs : PrevPairs) :
    ∀ (rest : List DiffEntry) (acc : List SPair) (used : List DevName) (l : List SPair),
      pairDevsLoop dev_matches previous_pairs rest acc used = some l →
      ∀ p ∈ l, p ∈ acc ∨
        ((∃ e ∈ rest, DiffEntry.name e = p.1) ∧
          ∃ ms, dev_matches.lookup p.1 = some ms ∧
            (∃ m ∈ ms, MatchEntry.name m = p.2) ∧
            excludedBy previous_pairs p.1 p.2 = false) := by
  intro rest
  induction rest with
  | nil =>
    intro acc used l h p hp
    injection h with h
    rw [← h] at hp
    exact Or.inl hp
  | cons e rest ih =>
    intro acc used l h p hp
    simp only [pairDevsLoop] at h
    by_cases he : e.name ∈ used
    · rw [if_pos he] at h
      rcases ih acc used l h p hp with hL | ⟨⟨e2, he2, hn2⟩, hR⟩
      · exact Or.inl hL
      · exact Or.inr ⟨⟨e2, List.mem_cons.mpr (Or.inr he2), hn2⟩, hR⟩
    · rw [if_neg he] at h
      cases hlk : dev_matches.lookup e.name with
      | none =>
        rw [hlk] at h
        exact Option.noConfusion h
      | some ms =>
        rw [hlk] at h
        have h2 : (match scanMatches previous_pairs e.name used ms with
            | none => pairDevsLoop dev_matches previous_pairs rest acc used
            | some pot => pairDevsLoop dev_matches previous_pairs rest
                (acc ++ [(e.name, pot)]) (used ++ [e.name, pot])) = some l := h
        cases hs : scanMatches previous_pairs e.name used ms with
        | none =>
          rw [hs] at h2
          rcases ih acc used l h2 p hp with hL | ⟨⟨e2, he2, hn2⟩, hR⟩
          · exact Or.inl hL
          · exact Or.inr ⟨⟨e2, List.mem_cons.mpr (Or.inr he2), hn2⟩, hR⟩
        | some pot =>
          rw [hs] at h2
          obtain ⟨⟨m, hmms, hmname⟩, _, hex⟩ := scanMatches_some hs
          rcases ih _ _ l h2 p hp with hL | ⟨⟨e2, he2, hn2⟩, hR⟩
          · rcases List.mem_append.mp hL with hL | hL
            · exact Or.inl hL
            · simp only [List.mem_singleton] at hL
              subst hL
              exact Or.inr ⟨⟨e, List.mem_cons_self _ _, rfl⟩,
                ms, hlk, ⟨m, hmms, hmname⟩, hex⟩
          · exact Or.inr ⟨⟨e2, List.mem_cons.mpr (Or.inr he2), hn2⟩, hR⟩

/-! Counting lemmas for the assembled-pairs cardinality. -/

lemma length_filter_and_ne (p : DevName → Bool) :
    ∀ (A : List DevName), A.Nodup → ∀ a ∈ A, p a = true →
      (A.filter p).length = (A.filter (fun x => p x && !(decide (x = a)))).length + 1 := by
  intro A
  induction A with
  | nil => intro _ a ha; simp at ha
  | cons c t ih =>
    intro hnd a ha hpa
    rw [List.nodup_cons] at hnd
    rcases List.mem_cons.mp ha with rfl | hat
    · have h1 : (p a && !(decide (a = a))) = false := by simp
      have hcong : t.filter (fun x => p x && !(decide (x = a))) = t.filter p := by
        apply List.filter_congr
        intro x hx
        have hxa : x ≠ a := fun hxa => hnd.1 (hxa ▸ hx)
        simp [hxa]
      simp [List.filter_cons, hpa, h1, hcong]
    · have hca : c ≠ a := fun h => hnd.1 (h ▸ hat)
      have hrec := ih hnd.2 a hat hpa
      cases hpc : p c
      · simp [List.filter_cons, hpc, hrec]
      · simp [List.filter_cons, hpc, hca, hrec]

lemma length_filter_unused_two (cohort used : List DevName) (hC : cohort.Nodup)
    (a b : DevName) (ha : a ∈ cohort) (hb : b ∈ cohort) (hab : a ≠ b)
    (hau : a ∉ used) (hbu : b ∉ used) :
    (cohort.filter (fun x => decide (x ∉ used))).length =
      (cohort.filter (fun x => decide (x ∉ (used ++ [a, b])))).length + 2 := by
  have hba : b ≠ a := fun h => hab h.symm
  have h1 := length_filter_and_ne (fun x => decide (x ∉ used)) cohort hC a ha (by simpa using hau)
  have h2 := length_filter_and_ne (fun x => decide (x ∉ used) && !(decide (x = a))) cohort hC b hb
    (by simp [hbu, hba])
  beta_reduce at h1 h2
  have hcong : cohort.filter
      (fun x => (decide (x ∉ used) && !(decide (x = a))) && !(decide (x = b))) =
      cohort.filter (fun x => decide (x ∉ (used ++ [a, b]))) := by
    apply List.filter_congr
    intro x _
    by_cases h1 : x ∈ used <;> by_cases h2 : x = a <;> by_cases h3 : x = b <;>
      simp [h1, h2, h3]
  rw [hcong] at h2
  omega

/-- Core cardinality fact about the greedy assembler with no exclusions
and complete match lists: the loop forms one pair for every two cohort
members not yet consumed, i.e. `⌊unconsumed/2⌋` further pairs. -/
lemma pairDevsLoop_count (dev_matches : List (DevName × List MatchEntry))
    (cohort : List DevName) (hC : cohort.Nodup)
    (Hdm : ∀ x ∈ cohort, ∃ ms, dev_matches.lookup x = some ms ∧
      ∀ y, y ∈ ms.map MatchEntry.name ↔ (y ∈ cohort ∧ y ≠ x)) :
    ∀ (rest : List DiffEntry) (used : List DevName) (acc : List SPair),
      (∀ e ∈ rest, DiffEntry.name e ∈ cohort) →
      used.Nodup → (∀ x ∈ used, x ∈ cohort) →
      (∀ x ∈ cohort, x ∉ used →
        x ∈ rest.map DiffEntry.name ∨ (∀ y ∈ cohort, y ≠ x → y ∈ used)) →
      ∃ l, pairDevsLoop dev_matches [] rest acc used = some (acc ++ l) ∧
        l.length = (cohort.filter (fun x => decide (x ∉ used))).length / 2 := by
  intro rest
  induction rest with
  | nil =>
    intro used acc _ _ _ hinv
    refine ⟨[], by simp [pairDevsLoop], ?_⟩
    have hnd : (cohort.filter (fun x => decide (x ∉ used))).Nodup := hC.filter _
    cases hfl : cohort.filter (fun x => decide (x ∉ used)) with
    | nil => simp [hfl]
    | cons x rest2 =>
      cases rest2 with
      | nil => simp [hfl]
      | cons y rest3 =>
        exfalso
        have hx : x ∈ cohort.filter (fun x => decide (x ∉ used)) := by
          rw [hfl]; exact List.mem_cons_self _ _
        have hy : y ∈ cohort.filter (fun x => decide (x ∉ used)) := by
          rw [hfl]; exact List.mem_cons.mpr (Or.inr (List.mem_cons_self _ _))
        rw [hfl] at hnd
        have hxy : x ≠ y := by
          rw [List.nodup_cons] at hnd
          exact fun h => hnd.1 (h ▸ List.mem_cons_self _ _)
        obtain ⟨hxC, hxU⟩ := List.mem_filter.mp hx
        obtain ⟨hyC, hyU⟩ := List.mem_filter.mp hy
        rcases hinv x hxC (by simpa using hxU) with hfalse | hall
        · simp at hfalse
        · exact (by simpa using hyU : y ∉ used) (hall y hyC (fun h => hxy h.symm))
  | cons e rest ih =>
    intro used acc hrest hndu husedC hinv
    by_cases he : e.name ∈ used
    · have hinv2 : ∀ x ∈ cohort, x ∉ used →
          x ∈ rest.map DiffEntry.name ∨ (∀ y ∈ cohort, y ≠ x → y ∈ used) := by
        intro x hxC hxU
        rcases hinv x hxC hxU with hmem | hall
        · rw [List.map_cons] at hmem
          rcases List.mem_cons.mp hmem with hx | hx
          · exact absurd (show x ∈ used by rw [hx]; exact he) hxU
          · exact Or.inl hx
        · exact Or.inr hall
      obtain ⟨l, hl, hcount⟩ := ih used acc (fun d hd => hrest d (List.mem_cons.mpr (Or.inr hd)))
        hndu husedC hinv2
      refine ⟨l, ?_, hcount⟩
      simp only [pairDevsLoop, if_pos he]
      exact hl
    · have heC : e.name ∈ cohort := hrest e (List.mem_cons_self _ _)
      obtain ⟨ms, hlk, hms⟩ := Hdm e.name heC
      cases hscan : scanMatches [] e.name used ms with
      | some pot =>
        obtain ⟨⟨m, hmms, hmname⟩, hpotU, _⟩ := scanMatches_some hscan
        have hpotNames : pot ∈ ms.map MatchEntry.name :=
          hmname ▸ List.mem_map_of_mem _ hmms
        obtain ⟨hpotC, hpotNe⟩ := (hms pot).mp hpotNames
        have hep : e.name ≠ pot := fun h => hpotNe h.symm
        have hndu2 : (used ++ [e.name, pot]).Nodup := by
          rw [List.nodup_append]
          refine ⟨hndu, by simp [hep], ?_⟩
          intro z hz
          simp only [List.mem_cons, List.mem_singleton, List.not_mem_nil]
          rintro (rfl | rfl | hfalse)
          · exact he hz
          · exact hpotU hz
          · exact hfalse
        have husedC2 : ∀ x ∈ used ++ [e.name, pot], x ∈ cohort := by
          intro x hx
          rcases List.mem_append.mp hx with hx | hx
          · exact husedC x hx
          · rcases List.mem_cons.mp hx with rfl | hx
            · exact heC
            · rcases List.mem_cons.mp hx with rfl | hx
              · exact hpotC
              · simp at hx
        have hinv2 : ∀ x ∈ cohort, x ∉ used ++ [e.name, pot] →
            x ∈ rest.map DiffEntry.name ∨
              (∀ y ∈ cohort, y ≠ x → y ∈ used ++ [e.name, pot]) := by
          intro x hxC hxU2
          have hxU : x ∉ used := fun h => hxU2 (List.mem_append.mpr (Or.inl h))
          have hxe : x ≠ e.name := fun h => hxU2 (by simp [h])
          rcases hinv x hxC hxU with hmem | hall
          · rw [List.map_cons] at hmem
            rcases List.mem_cons.mp hmem with hx | hx
            · exact absurd hx hxe
            · exact Or.inl hx
          · exact Or.inr fun y hyC hyx =>
              List.mem_append.mpr (Or.inl (hall y hyC hyx))
        obtain ⟨l, hl, hcount⟩ := ih (used ++ [e.name, pot]) (acc ++ [(e.name, pot)])
          (fun d hd => hrest d (List.mem_cons.mpr (Or.inr hd))) hndu2 husedC2 hinv2
        refine ⟨(e.name, pot) :: l, ?_, ?_⟩
        · simp only [pairDevsLoop, if_neg he, hlk]
          show (match scanMatches [] e.name used ms with
              | none => pairDevsLoop dev_matches [] rest acc used
              | some pot => pairDevsLoop dev_matches [] rest
                  (acc ++ [(e.name, pot)]) (used ++ [e.name, pot])) =
            some (acc ++ (e.name, pot) :: l)
          rw [hscan]
          show pairDevsLoop dev_matches [] rest
              (acc ++ [(e.name, pot)]) (used ++ [e.name, pot]) =
            some (acc ++ (e.name, pot) :: l)
          rw [hl]
          simp
        · have hkey := length_filter_unused_two cohort used hC e.name pot heC hpotC
            hep he hpotU
          simp only [List.length_cons, hcount]
          omega
      | none =>
        have hall : ∀ y ∈ cohort, y ≠ e.name → y ∈ used := by
          intro y hyC hyne
          have hyNames : y ∈ ms.map MatchEntry.name := (hms y).mpr ⟨hyC, hyne⟩
          obtain ⟨m, hmms, hmname⟩ := List.mem_map.mp hyNames
          rcases scanMatches_none hscan m hmms with hu | hex
          · exact hmname ▸ hu
          · rw [excludedBy_nil] at hex
            exact absurd hex (by simp)
        have hinv2 : ∀ x ∈ cohort, x ∉ used →
            x ∈ rest.map DiffEntry.name ∨ (∀ y ∈ cohort, y ≠ x → y ∈ used) := by
          intro x hxC hxU
          by_cases hxe : x = e.name
          · subst hxe
            exact Or.inr hall
          · exact absurd (hall x hxC hxe) hxU
        obtain ⟨l, hl, hcount⟩ := ih used acc
          (fun d hd => hrest d (List.mem_cons.mpr (Or.inr hd))) hndu husedC hinv2
        refine ⟨l, ?_, hcount⟩
        simp only [pairDevsLoop, if_neg he, hlk]
        show (match scanMatches [] e.name used ms with
            | none => pairDevsLoop dev_matches [] rest acc used
            | some pot => pairDevsLoop dev_matches [] rest
                (acc ++ [(e.name, pot)]) (used ++ [e.name, pot])) =
          some (acc ++ l)
        rw [hscan]
        exact hl

/-! Facts about the match-list pipeline feeding the assembler. -/

lemma idealPairAux_eq_map :
    ∀ l : List (String × ℤ),
      idealPairAux l = l.map (fun p => (p.1, MAX_VAL - p.2 + MIN_VAL)) := by
  intro l
  induction l with
  | nil => rfl
  | cons p rest ih => simp [idealPairAux, ih]

lemma diffAux_isSome :
    ∀ (l1 l2 : List (String × ℤ)),
      (∀ p ∈ l1, (l2.lookup p.1).isSome) → ∃ s, diffAux l2 l1 = some s := by
  intro l1
  induction l1 with
  | nil => exact fun l2 _ => ⟨0, rfl⟩
  | cons p rest ih =>
    intro l2 h
    obtain ⟨w, hw⟩ := Option.isSome_iff_exists.mp (h p (List.mem_cons_self _ _))
    obtain ⟨s, hs⟩ := ih l2 (fun q hq => h q (List.mem_cons.mpr (Or.inr hq)))
    exact ⟨|p.2 - w| + s, by simp [diffAux, hw, hs]⟩

lemma collectMatches_spec (mp : List (String × ℤ)) (x : DevName) :
    ∀ devs : List Dev,
      (∀ c ∈ devs, c.name ≠ x → ∃ s, diff_heuristic mp c.repos = some s) →
      ∃ tm, collectMatches mp x devs = some tm ∧
        ∀ y, y ∈ tm.map MatchEntry.name ↔ (∃ c ∈ devs, Dev.name c = y ∧ y ≠ x) := by
  intro devs
  induction devs with
  | nil => exact fun _ => ⟨[], rfl, by simp⟩
  | cons c rest ih =>
    intro h
    obtain ⟨tm, htm, hmem⟩ := ih (fun c2 hc2 => h c2 (List.mem_cons.mpr (Or.inr hc2)))
    by_cases hc : c.name ≠ x
    · obtain ⟨s, hs⟩ := h c (List.mem_cons_self _ _) hc
      refine ⟨⟨c.name, s⟩ :: tm, ?_, ?_⟩
      · simp only [collectMatches, if_pos hc, hs, htm]
        rfl
      · intro y
        rw [List.map_cons]
        constructor
        · intro hy
          rcases List.mem_cons.mp hy with rfl | hy
          · exact ⟨c, List.mem_cons_self _ _, rfl, hc⟩
          · obtain ⟨c2, hc2, hn, hyx⟩ := (hmem y).mp hy
            exact ⟨c2, List.mem_cons.mpr (Or.inr hc2), hn, hyx⟩
        · rintro ⟨c2, hc2, hn, hyx⟩
          rcases List.mem_cons.mp hc2 with rfl | hc2
          · exact List.mem_cons.mpr (Or.inl hn.symm)
          · exact List.mem_cons.mpr (Or.inr ((hmem y).mpr ⟨c2, hc2, hn, hyx⟩))
    · have hceq : c.name = x := not_ne_iff.mp hc
      refine ⟨tm, ?_, ?_⟩
      · simp only [collectMatches, if_neg hc]
        exact htm
      · intro y
        rw [hmem y]
        constructor
        · rintro ⟨c2, hc2, hn, hyx⟩
          exact ⟨c2, List.mem_cons.mpr (Or.inr hc2), hn, hyx⟩
        · rintro ⟨c2, hc2, hn, hyx⟩
          rcases List.mem_cons.mp hc2 with rfl | hc2
          · exact absurd (hceq ▸ hn) (fun hxy => hyx hxy.symm)
          · exact ⟨c2, hc2, hn, hyx⟩

lemma lookup_map_of_nodup {β : Type} (f : Dev → β) :
    ∀ (devs : List Dev), (devs.map Dev.name).Nodup → ∀ d ∈ devs,
      (devs.map (fun x => (x.name, f x))).lookup d.name = some (f d) := by
  intro devs
  induction devs with
  | nil => intro _ d hd; simp at hd
  | cons c rest ih =>
    intro hnd d hd
    rw [List.map_cons, List.nodup_cons] at hnd
    rcases List.mem_cons.mp hd with rfl | hd
    · simp [List.lookup]
    · have hne : d.name ≠ c.name := by
        intro h
        exact hnd.1 (h ▸ List.mem_map_of_mem Dev.name hd)
      have hbe : (d.name == c.name) = false := beq_eq_false_iff_ne.mpr hne
      simp only [List.map_cons, List.lookup, hbe]
      exact ih hnd.2 d hd

lemma getDevMatchesAux_spec (devs : List Dev)
    (ideal : List (DevName × List (String × ℤ)))
    (hok : ∀ d ∈ devs, ∃ mp, ideal.lookup d.name = some mp ∧
      ∃ tm, collectMatches mp d.name devs = some tm ∧
        ∀ y, y ∈ tm.map MatchEntry.name ↔ (∃ c ∈ devs, Dev.name c = y ∧ y ≠ d.name)) :
    ∀ rest : List Dev, (∀ d ∈ rest, d ∈ devs) →
      ∃ dm, getDevMatchesAux devs ideal rest = some dm ∧
        dm.map Prod.fst = rest.map Dev.name ∧
        ∀ d ∈ rest, ∃ ms, dm.lookup d.name = some ms ∧
          ∀ y, y ∈ ms.map MatchEntry.name ↔ (∃ c ∈ devs, Dev.name c = y ∧ y ≠ d.name) := by
  intro rest
  induction rest with
  | nil => exact fun _ => ⟨[], rfl, rfl, by simp⟩
  | cons d rest ih =>
    intro hsub
    obtain ⟨mp, hmp, tm, htm, hmem⟩ := hok d (hsub d (List.mem_cons_self _ _))
    obtain ⟨dm, hdm, hkeys, hrest⟩ := ih (fun d2 hd2 => hsub d2 (List.mem_cons.mpr (Or.inr hd2)))
    refine ⟨(d.name, reorder_ranks tm none) :: dm, ?_, ?_, ?_⟩
    · simp only [getDevMatchesAux, hmp, htm, hdm]
      rfl
    · simp [hkeys]
    · intro d2 hd2
      cases hbe : (d2.name == d.name) with
      | true =>
        have heq : d2.name = d.name := eq_of_beq hbe
        refine ⟨reorder_ranks tm none, by simp [List.lookup, hbe], ?_⟩
        intro y
        have hperm : ((reorder_ranks tm none).map MatchEntry.name).Perm
            (tm.map MatchEntry.name) :=
          (List.perm_insertionSort _ tm).map MatchEntry.name
        rw [hperm.mem_iff, hmem y, heq]
      | false =>
        have hne : d2.name ≠ d.name := by
          intro h
          rw [h] at hbe
          simp at hbe
        have hd2r : d2 ∈ rest := by
          rcases List.mem_cons.mp hd2 with rfl | hd2
          · exact absurd rfl hne
          · exact hd2
        obtain ⟨ms, hms, hiff⟩ := hrest d2 hd2r
        refine ⟨ms, ?_, hiff⟩
        simp only [List.lookup, hbe]
        exact hms

lemma total_difficulty_names (dm : List (DevName × List MatchEntry)) :
    ((total_dev_pairing_difficulty dm).map DiffEntry.name).Perm (dm.map Prod.fst) := by
  unfold total_dev_pairing_difficulty
  have hperm := (List.perm_insertionSort (fun a b : DiffEntry => b.difficulty ≤ a.difficulty)
    (dm.map (fun p => DiffEntry.mk p.1 ((p.2.map MatchEntry.diff).sum)))).map DiffEntry.name
  have h2 : (dm.map (fun p => DiffEntry.mk p.1 ((p.2.map MatchEntry.diff).sum))).map
      DiffEntry.name = dm.map Prod.fst := by
    rw [List.map_map]
    rfl
  rw [h2] at hperm
  exact hperm

/-- With distinct names and a uniform topic set, the full pipeline pairs
exactly `⌊n/2⌋` of the `n` cohort members. -/
lemma build_pairs_count (devs : List Dev) (hnd : (devs.map Dev.name).Nodup)
    (htop : ∀ d1 ∈ devs, ∀ d2 ∈ devs, ∀ p ∈ d1.repos, (d2.repos.lookup p.1).isSome) :
    (build_pairs devs []).map List.length = some (devs.length / 2) := by
  have hok : ∀ d ∈ devs, ∃ mp, (get_ideal_dev_pairs devs).lookup d.name = some mp ∧
      ∃ tm, collectMatches mp d.name devs = some tm ∧
        ∀ y, y ∈ tm.map MatchEntry.name ↔ (∃ c ∈ devs, Dev.name c = y ∧ y ≠ d.name) := by
    intro d hd
    refine ⟨get_ideal_pair d, lookup_map_of_nodup get_ideal_pair devs hnd d hd, ?_⟩
    apply collectMatches_spec
    intro c hc _
    apply diffAux_isSome
    intro p hp
    rw [get_ideal_pair, idealPairAux_eq_map] at hp
    obtain ⟨q, hq, hqp⟩ := List.mem_map.mp hp
    have hfst : p.1 = q.1 := by rw [← hqp]
    rw [hfst]
    exact htop d hd c hc q hq
  obtain ⟨dm, hdm, hkeys, hmsfacts⟩ :=
    getDevMatchesAux_spec devs (get_ideal_dev_pairs devs) hok devs (fun d hd => hd)
  have Hdm : ∀ x ∈ devs.map Dev.name, ∃ ms, dm.lookup x = some ms ∧
      ∀ y, y ∈ ms.map MatchEntry.name ↔ (y ∈ devs.map Dev.name ∧ y ≠ x) := by
    intro x hx
    obtain ⟨d, hd, hdname⟩ := List.mem_map.mp hx
    subst hdname
    obtain ⟨ms, hms, hiff⟩ := hmsfacts d hd
    refine ⟨ms, hms, fun y => ?_⟩
    rw [hiff y]
    constructor
    · rintro ⟨c, hc, rfl, hyx⟩
      exact ⟨List.mem_map_of_mem _ hc, hyx⟩
    · rintro ⟨hy, hyx⟩
      obtain ⟨c, hc, rfl⟩ := List.mem_map.mp hy
      exact ⟨c, hc, rfl, hyx⟩
  have hddperm : ((total_dev_pairing_difficulty dm).map DiffEntry.name).Perm
      (devs.map Dev.name) := hkeys ▸ total_difficulty_names dm
  obtain ⟨l, hl, hcount⟩ := pairDevsLoop_count dm (devs.map Dev.name) hnd Hdm
    (total_dev_pairing_difficulty dm) [] []
    (fun e he => hddperm.subset (List.mem_map_of_mem _ he))
    List.nodup_nil (by simp)
    (fun x hx _ => Or.inl (hddperm.mem_iff.mpr hx))
  have hfilter : (devs.map Dev.name).filter
      (fun x => decide (x ∉ ([] : List DevName))) = devs.map Dev.name := by
    apply List.filter_eq_self.mpr
    intro a _
    simp
  rw [hfilter] at hcount
  unfold build_pairs
  have hdm2 : get_dev_matches devs (get_ideal_dev_pairs devs) = some dm := hdm
  simp only [hdm2]
  show (Option.map List.length (pairDevsLoop dm [] (total_dev_pairing_difficulty dm) [] [])) =
    some (devs.length / 2)
  rw [hl]
  simp [hcount]

/-! Concrete inputs used by the remaining claims. -/

/-- Match dict for a two-dev cohort where each dev ranks the other. -/
def sampleMatches : List (DevName × List MatchEntry) :=
  [("a", [⟨"b", 0⟩]), ("b", [⟨"a", 0⟩])]

/-- Difficulty order listing "a" first. -/
def sampleDifficulty : List DiffEntry := [⟨"a", 0⟩, ⟨"b", 0⟩]

/-- Previous-pairs memory excluding "a" for "b" only (one-sided). -/
def samplePrev : PrevPairs := [("b", ["a"])]

/-- Degenerate ranked lists in which "a" ranks itself. -/
def selfMatches : List (DevName × List MatchEntry) := [("a", [⟨"a", 0⟩])]

/-- Difficulty order for the one-participant cohort. -/
def selfDifficulty : List DiffEntry := [⟨"a", 0⟩]

/-- The first participant of the reference cohort. -/
def devOne : Dev := ⟨"dev1", [("repo1", 2), ("repo2", 4), ("repo3", 5)]⟩

/-- Counterexample to C5 as stated: fed a ranked list in which "a" offers
itself as a candidate, the assembler returns the pair `("a","a")` — its two
members are not distinct, and the odd cohort (size 1) has zero, not exactly
one, unpaired participant. -/
theorem claim_C5_counterexample :
    pair_devs selfMatches selfDifficulty [] = some [("a", "a")] := by decide

/-- Claim C5, amended: for every ranked-match input, difficulty order and
exclusion map, the returned pairs are pairwise member-disjoint; the two
members of each pair are distinct provided no participant's ranked list
offers that participant itself (as the pipeline guarantees); and the
exactly-one-unpaired-when-odd behaviour holds under empty exclusions and
ranked lists covering exactly the other cohort members, where `⌊n/2⌋`
pairs are formed. -/
theorem claim_C5 :
    (∀ (dm : List (DevName × List MatchEntry)) (dd : List DiffEntry)
        (prev : PrevPairs) (l : List SPair),
        pair_devs dm dd prev = some l → pairsDisjoint l) ∧
      (∀ (dm : List (DevName × List MatchEntry)) (dd : List DiffEntry)
        (prev : PrevPairs) (l : List SPair),
        (∀ pr ∈ dm, ∀ m ∈ pr.2, MatchEntry.name m ≠ pr.1) →
        pair_devs dm dd prev = some l → ∀ p ∈ l, p.1 ≠ p.2) ∧
      (∀ (dm : List (DevName × List MatchEntry)) (dd : List DiffEntry),
        (dd.map DiffEntry.name).Nodup →
        (∀ e ∈ dd, ∃ ms, dm.lookup (DiffEntry.name e) = some ms ∧
          ∀ y, y ∈ ms.map MatchEntry.name ↔
            (y ∈ dd.map DiffEntry.name ∧ y ≠ e.name)) →
        (pair_devs dm dd []).map List.length = some (dd.length / 2)) := by
  refine ⟨?_, ?_, ?_⟩
  · intro dm dd prev l h
    exact pairDevsLoop_disjoint dm prev dd [] [] l (by simp) List.Pairwise.nil h
  · intro dm dd prev l hself h p hp
    rcases pairDevsLoop_pairs_from dm prev dd [] [] l h p hp with hfalse | ⟨_, ms, hlk, ⟨m, hm, hmn⟩, _⟩
    · simp at hfalse
    · intro hc
      exact hself (p.1, ms) (lookup_mem dm p.1 ms hlk) m hm (hmn.trans hc.symm)
  · intro dm dd hnd hcomp
    have Hdm : ∀ x ∈ dd.map DiffEntry.name, ∃ ms, dm.lookup x = some ms ∧
        ∀ y, y ∈ ms.map MatchEntry.name ↔ (y ∈ dd.map DiffEntry.name ∧ y ≠ x) := by
      intro x hx
      obtain ⟨e, he, hename⟩ := List.mem_map.mp hx
      subst hename
      exact hcomp e he
    obtain ⟨l, hl, hcount⟩ := pairDevsLoop_count dm (dd.map DiffEntry.name) hnd Hdm dd [] []
      (fun e he => List.mem_map_of_mem _ he) List.nodup_nil (by simp)
      (fun x hx _ => Or.inl hx)
    have hfilter : (dd.map DiffEntry.name).filter
        (fun x => decide (x ∉ ([] : List DevName))) = dd.map DiffEntry.name := by
      apply List.filter_eq_self.mpr
      intro a _
      simp
    rw [hfilter] at hcount
    show (Option.map List.length (pairDevsLoop dm [] dd [] [])) = some (dd.length / 2)
    rw [hl]
    simp [hcount]

/-- Witness for C5, exercising all three parts on the two-dev sample. -/
theorem claim_C5_witness :
    pairsDisjoint [(("a", "b") : SPair)] ∧
      (("a", "b") : SPair).1 ≠ (("a", "b") : SPair).2 ∧
      (pair_devs sampleMatches sampleDifficulty []).map List.length =
        some (sampleDifficulty.length / 2) := by
  have hrun : pair_devs sampleMatches sampleDifficulty samplePrev = some [("a", "b")] := by
    decide
  refine ⟨claim_C5.1 sampleMatches sampleDifficulty samplePrev [("a", "b")] hrun, ?_, ?_⟩
  · exact claim_C5.2.1 sampleMatches sampleDifficulty samplePrev [("a", "b")]
      (by decide) hrun ("a", "b") (by decide)
  · apply claim_C5.2.2 sampleMatches sampleDifficulty (by decide)
    intro e he
    rcases List.mem_cons.mp he with rfl | he
    · refine ⟨[⟨"b", 0⟩], by decide, ?_⟩
      intro y
      constructor
      · intro hy
        rcases List.mem_cons.mp hy with rfl | hy
        · exact ⟨by decide, by decide⟩
        · simp at hy
      · rintro ⟨hy, hne⟩
        rcases List.mem_cons.mp hy with rfl | hy
        · exact absurd rfl hne
        · rcases List.mem_cons.mp hy with rfl | hy
          · exact List.mem_cons_self _ _
          · simp at hy
    · rcases List.mem_cons.mp he with rfl | he
      · refine ⟨[⟨"a", 0⟩], by decide, ?_⟩
        intro y
        constructor
        · intro hy
          rcases List.mem_cons.mp hy with rfl | hy
          · exact ⟨by decide, by decide⟩
          · simp at hy
        · rintro ⟨hy, hne⟩
          rcases List.mem_cons.mp hy with rfl | hy
          · exact List.mem_cons_self _ _
          · rcases List.mem_cons.mp hy with rfl | hy
            · exact absurd rfl hne
            · simp at hy
      · simp at he

/-- Claim C6: with distinct names and a uniform topic set, `build_pairs`
with no exclusions returns exactly `⌊n/2⌋` pairs; on the 7-participant
reference cohort it returns exactly 3 pairwise-disjoint pairs and leaves
exactly one participant ("dev5") unpaired. -/
theorem claim_C6 :
    (∀ devs : List Dev, (devs.map Dev.name).Nodup →
      (∀ d1 ∈ devs, ∀ d2 ∈ devs, ∀ p ∈ d1.repos, (d2.repos.lookup p.1).isSome) →
      (build_pairs devs []).map List.length = some (devs.length / 2)) ∧
      (build_pairs TEST_DATA [] =
          some [("dev4", "dev7"), ("dev2", "dev1"), ("dev3", "dev6")] ∧
        pairsDisjoint [(("dev4", "dev7") : SPair), ("dev2", "dev1"), ("dev3", "dev6")] ∧
        (TEST_DATA.map Dev.name).filter
          (fun x => x ∉ pairMembers [("dev4", "dev7"), ("dev2", "dev1"), ("dev3", "dev6")]) =
          ["dev5"]) := by
  refine ⟨fun devs hnd htop => build_pairs_count devs hnd htop, by decide, ?_, by decide⟩
  unfold pairsDisjoint
  decide

/-- Witness for C6 at the reference cohort: 7 participants give
`⌊7/2⌋ = 3` pairs. -/
theorem claim_C6_witness :
    (build_pairs TEST_DATA []).map List.length = some (TEST_DATA.length / 2) :=
  claim_C6.1 TEST_DATA (by decide) (by decide)

/-- Claim C7: the assembler equals the spec-worded first-admissible-
candidate selection (consumed candidates and the participant's own
exclusion set are skipped, never relaxed), and no returned pair ever joins
a participant with a member of that participant's exclusion set. -/
theorem claim_C7 :
    (∀ (dm : List (DevName × List MatchEntry)) (dd : List DiffEntry) (prev : PrevPairs),
        pair_devs dm dd prev = pairDevsSpec dm dd prev) ∧
      (∀ (dm : List (DevName × List MatchEntry)) (dd : List DiffEntry)
        (prev : PrevPairs) (l : List SPair),
        pair_devs dm dd prev = some l →
        ∀ p ∈ l, p.2 ∉ exclusionSetOf prev p.1) := by
  constructor
  · intro dm dd prev
    exact pairDevsLoop_eq_specLoop dm prev dd [] []
  · intro dm dd prev l h p hp
    rcases pairDevsLoop_pairs_from dm prev dd [] [] l h p hp with hfalse | ⟨_, _, _, _, hex⟩
    · simp at hfalse
    · rw [excludedBy_eq] at hex
      exact of_decide_eq_false hex

/-- Witness for C7 on the two-dev sample with a one-sided exclusion. -/
theorem claim_C7_witness :
    pair_devs sampleMatches sampleDifficulty samplePrev =
        pairDevsSpec sampleMatches sampleDifficulty samplePrev ∧
      ("b" : DevName) ∉ exclusionSetOf samplePrev "a" := by
  refine ⟨claim_C7.1 sampleMatches sampleDifficulty samplePrev, ?_⟩
  have h : pair_devs sampleMatches sampleDifficulty samplePrev = some [("a", "b")] := by
    decide
  exact claim_C7.2 sampleMatches sampleDifficulty samplePrev [("a", "b")] h
    ("a", "b") (by decide)

lemma idealPairAux_lookup :
    ∀ (l : List (String × ℤ)) (t : String) (v : ℤ), l.lookup t = some v →
      (idealPairAux l).lookup t = some (MAX_VAL - v + MIN_VAL) := by
  intro l
  induction l with
  | nil => intro t v h; simp [List.lookup] at h
  | cons q rest ih =>
    intro t v h
    obtain ⟨k, w⟩ := q
    simp only [List.lookup, idealPairAux] at h ⊢
    cases hbe : (t == k) with
    | true =>
      rw [hbe] at h
      injection h with h
      subst h
      rfl
    | false =>
      rw [hbe] at h
      exact ih t v h

/-- Claim C8: the Profile Builder returns, for each topic, exactly
`MAX_VAL - skill + MIN_VAL`, and for in-range skills the complementary
value is again within `[MIN_VAL, MAX_VAL]`; it is a pure total function of
its input. -/
theorem claim_C8 (dev : Dev) :
    (∀ (t : String) (v : ℤ), dev.repos.lookup t = some v →
      (get_ideal_pair dev).lookup t = some (MAX_VAL - v + MIN_VAL)) ∧
      ((∀ q ∈ dev.repos, MIN_VAL ≤ q.2 ∧ q.2 ≤ MAX_VAL) →
        ∀ p ∈ get_ideal_pair dev, MIN_VAL ≤ p.2 ∧ p.2 ≤ MAX_VAL) := by
  constructor
  · intro t v h
    exact idealPairAux_lookup dev.repos t v h
  · intro hrange p hp
    rw [get_ideal_pair, idealPairAux_eq_map] at hp
    obtain ⟨q, hq, hqp⟩ := List.mem_map.mp hp
    obtain ⟨h1, h2⟩ := hrange q hq
    have hp2 : p.2 = MAX_VAL - q.2 + MIN_VAL := by rw [← hqp]
    rw [hp2]
    have h1a : (1 : ℤ) ≤ q.2 := h1
    have h2a : q.2 ≤ 5 := h2
    show (1 : ℤ) ≤ 5 - q.2 + 1 ∧ 5 - q.2 + 1 ≤ 5
    omega

/-- Witness for C8 at the reference participant dev1. -/
theorem claim_C8_witness :
    (get_ideal_pair devOne).lookup "repo1" = some (MAX_VAL - 2 + MIN_VAL) ∧
      (MIN_VAL ≤ (4 : ℤ) ∧ (4 : ℤ) ≤ MAX_VAL) :=
  ⟨(claim_C8 devOne).1 "repo1" 2 (by decide),
    (claim_C8 devOne).2 (by decide) ("repo1", 4) (by decide)⟩

lemma diffAux_spec :
    ∀ (l1 l2 : List (String × ℤ)) (s : ℤ), diffAux l2 l1 = some s →
      0 ≤ s ∧ (s = 0 ↔ ∀ p ∈ l1, l2.lookup p.1 = some p.2) := by
  intro l1
  induction l1 with
  | nil =>
    intro l2 s h
    injection h with h
    subst h
    simp
  | cons p rest ih =>
    intro l2 s h
    simp only [diffAux] at h
    cases hw : l2.lookup p.1 with
    | none =>
      rw [hw] at h
      exact Option.noConfusion h
    | some w =>
      rw [hw] at h
      cases hrec : diffAux l2 rest with
      | none =>
        rw [hrec] at h
        exact Option.noConfusion h
      | some s0 =>
        rw [hrec] at h
        have heq : |p.2 - w| + s0 = s := by simpa using h
        obtain ⟨h0, hiff⟩ := ih l2 s0 hrec
        have habs : 0 ≤ |p.2 - w| := abs_nonneg _
        subst heq
        constructor
        · omega
        · rw [List.forall_mem_cons]
          constructor
          · intro hs
            have hz0 : s0 = 0 := by omega
            have hzabs : |p.2 - w| = 0 := by omega
            have hpw : p.2 = w := by
              have h3 := abs_eq_zero.mp hzabs
              omega
            exact ⟨by rw [hw, hpw], hiff.mp hz0⟩
          · rintro ⟨hp, hrest⟩
            rw [hw] at hp
            injection hp with hp
            have hz : |p.2 - w| = 0 := by
              rw [abs_eq_zero]
              omega
            have hz0 : s0 = 0 := hiff.mpr hrest
            omega

/-- Claim C9: whenever every topic of the target mapping is present in the
candidate mapping, the affinity score exists, is a non-negative integer,
and vanishes exactly when the candidate matches the target on every topic;
concretely, dev1's complementary target is `{repo1:4, repo2:2, repo3:1}`
and its affinity toward dev2's profile is 1. -/
theorem claim_C9 :
    (∀ dev1 dev2 : List (String × ℤ),
      (∀ p ∈ dev1, (dev2.lookup p.1).isSome) →
      diff_heuristic dev1 dev2 ≠ none ∧
        ∀ s, diff_heuristic dev1 dev2 = some s →
          0 ≤ s ∧ (s = 0 ↔ ∀ p ∈ dev1, dev2.lookup p.1 = some p.2)) ∧
      (get_ideal_pair devOne = [("repo1", 4), ("repo2", 2), ("repo3", 1)] ∧
        diff_heuristic (get_ideal_pair devOne)
          [("repo1", 5), ("repo2", 2), ("repo3", 1)] = some 1) := by
  refine ⟨?_, by decide, by decide⟩
  intro dev1 dev2 hkeys
  obtain ⟨s, hs⟩ := diffAux_isSome dev1 dev2 hkeys
  constructor
  · rw [diff_heuristic, hs]
    simp
  · intro s2 hs2
    exact diffAux_spec dev1 dev2 s2 hs2

/-- Witness for C9 at the scenario-A profiles. -/
theorem claim_C9_witness :
    diff_heuristic (get_ideal_pair devOne)
        [("repo1", 5), ("repo2", 2), ("repo3", 1)] ≠ none ∧
      0 ≤ (1 : ℤ) ∧ ((1 : ℤ) = 0 ↔ ∀ p ∈ get_ideal_pair devOne,
        (([("repo1", 5), ("repo2", 2), ("repo3", 1)] : List (String × ℤ)).lookup p.1 =
          some p.2)) := by
  have h := claim_C9.1 (get_ideal_pair devOne)
    [("repo1", 5), ("repo2", 2), ("repo3", 1)] (by decide)
  exact ⟨h.1, h.2 1 (by decide)⟩

/-- Claim C10: the exclusion check of `pair_devs` is one-sided — it
consults only the difficulty-first member's exclusion set, so with "a"
excluded for "b" (but not vice versa) the assembler still returns
`("a","b")`, a pair whose first member lies in the exclusion set of the
second. -/
theorem claim_C10 :
    pair_devs sampleMatches sampleDifficulty samplePrev = some [("a", "b")] ∧
      ("a" : DevName) ∈ exclusionSetOf samplePrev "b" ∧
      ("b" : DevName) ∉ exclusionSetOf samplePrev "a" :=
  ⟨by decide, by decide, by decide⟩
